import Mathlib

/-!
Verification of the in-memory MapReduce library (src/mapreduce.c) against its
specification.

Shallow embedding conventions:
* C strings are modeled as their byte lists (`CStr := List Nat`); `strcmp`
  equality is list equality.  `strdup` copies are value copies, which the
  functional model represents by the value itself.
* `unsigned long` arithmetic is `Nat` with explicit reduction modulo `2 ^ 64`.
* The globals `partitions` / `num_partitions` form the state `MRState`; the
  global `partitioner_` is passed explicitly to each operation that reads it.
* The per-partition pthread mutex serializes concurrent emits; the model works
  on the linearization of the emits in the order the locks granted them, so a
  run's map phase is a fold of `MR_Emit` over the emitted pairs.
* NULL returned by `get_next` is `Option.none`.
-/

/-- A C string, as its list of bytes (no interior NUL byte). -/
abbrev CStr := List Nat

/-- Level 1 node `entry_t` (src/mapreduce.c lines 33-37): a key together with the
level 2 list of the values stored for it, head = most recently emitted value.
The `next` pointers of both levels are the list structure itself. -/
structure entry_t where
  key : CStr
  head : List CStr
  deriving DecidableEq

/-- `partition_t` (lines 40-43): the entry list of one partition.  The pthread
mutex only serializes emits and is not part of the functional state. -/
structure partition_t where
  head : List entry_t
  deriving DecidableEq

/-- The globals `partitions` and `num_partitions` (lines 47-48). -/
structure MRState where
  num_partitions : Nat
  partitions : List partition_t
  deriving DecidableEq

/-- The hashing loop of `MR_DefaultHashPartition` (lines 224-226):
`hash = hash * 33 + c` over the key's bytes, in `unsigned long` (64-bit)
arithmetic. -/
def hashLoop (hash : Nat) : CStr → Nat
  | [] => hash
  | c :: rest => hashLoop ((hash * 33 + c) % 2 ^ 64) rest

/-- `MR_DefaultHashPartition` (lines 221-228): the accumulated hash, seeded with
5381, reduced modulo the partition count. -/
def MR_DefaultHashPartition (key : CStr) (num_partitions_ : Nat) : Nat :=
  hashLoop 5381 key % num_partitions_

/-- Spec-side definition, for the refinement part of the partitioner claim: "a
multiplicative string hash (seed 5381, multiplier 33, accumulated over bytes)
reduced modulo partitionCount", accumulated in the 64-bit unsigned arithmetic
of the host implementation. -/
def specMultiplicativeHash (key : CStr) : Nat :=
  key.foldl (fun h c => (h * 33 + c) % 2 ^ 64) 5381

/-- The search loop of `get_entry` (lines 67-72), as the test it computes:
whether some entry of the list carries the key. -/
def containsKey (key : CStr) : List entry_t → Bool
  | [] => false
  | e :: es => if e.key = key then true else containsKey key es

/-- The value insertion of `MR_Emit` (lines 173-176) when `get_entry` found an
existing entry: the new value node is pushed onto the level 2 list of the first
entry whose key matches. -/
def prependValue (key value : CStr) : List entry_t → List entry_t
  | [] => []
  | e :: es =>
    if e.key = key then { e with head := value :: e.head } :: es
    else e :: prependValue key value es

/-- Effect of one `MR_Emit` on the target partition's entry list: `get_entry`
(lines 62-79) returns the existing entry for the key, or inserts a fresh one
(`generate_entry`, lines 52-59, with an empty value list) at the front of the
partition; `MR_Emit` then prepends the value node (lines 173-176), so a fresh
entry ends up holding exactly the one value. -/
def emitEntries (key value : CStr) (es : List entry_t) : List entry_t :=
  if containsKey key es then prependValue key value es
  else { key := key, head := [value] } :: es

/-- The loop of `get_next` (lines 87-100) on an entry list: find the first entry
with the key; pop and return its head value if one remains; return NULL (none)
leaving the list unchanged when the entry is drained or the key is absent. -/
def getNextEntries (key : CStr) : List entry_t → Option CStr × List entry_t
  | [] => (none, [])
  | e :: es =>
    if e.key = key then
      match e.head with
      | [] => (none, e :: es)
      | v :: vs => (some v, { e with head := vs } :: es)
    else
      ((getNextEntries key es).1, e :: (getNextEntries key es).2)

/-- Read `partitions[pn].head`; an out-of-range index (undefined behavior in C)
reads as the empty partition. -/
def partitionEntries (st : MRState) (pn : Nat) : List entry_t :=
  (st.partitions.getD pn { head := [] }).head

/-- Write back the entry list of `partitions[pn]`. -/
def setPartitionEntries (st : MRState) (pn : Nat) (es : List entry_t) : MRState :=
  { st with partitions := st.partitions.set pn { head := es } }

/-- `MR_Emit` (lines 165-179): the installed partitioner picks the partition
from the key and the global partition count; under that partition's lock the
entry is found or created and the value prepended.  `get_entry` recomputes the
same index at line 63, the partitioner being pure. -/
def MR_Emit (partitioner_ : CStr → Nat → Nat) (st : MRState) (key value : CStr) : MRState :=
  setPartitionEntries st (partitioner_ key st.num_partitions)
    (emitEntries key value (partitionEntries st (partitioner_ key st.num_partitions)))

/-- `get_next` (lines 83-102): pops the most recent remaining value of the key
in the given partition, or returns NULL. -/
def get_next (st : MRState) (key : CStr) (partition_number : Nat) : Option CStr × MRState :=
  ((getNextEntries key (partitionEntries st partition_number)).1,
    setPartitionEntries st partition_number
      (getNextEntries key (partitionEntries st partition_number)).2)

/-- The partition initialization of `MR_Run` (lines 184-190): `num_partitions`
is set to the reducer count and that many empty partitions are allocated. -/
def initState (num_reducers : Nat) : MRState :=
  { num_partitions := num_reducers
    partitions := List.replicate num_reducers { head := [] } }

/-- The aggregation produced by a map phase, as the fold of `MR_Emit` over the
emitted `(key, value)` pairs in the order the partition locks serialized
them. -/
def runEmits (partitioner_ : CStr → Nat → Nat) (R : Nat)
    (emits : List (CStr × CStr)) : MRState :=
  emits.foldl (fun st kv => MR_Emit partitioner_ st kv.1 kv.2) (initState R)

/-- The values emitted for one key, in emission order. -/
def emittedFor (k : CStr) (emits : List (CStr × CStr)) : List CStr :=
  (emits.filter (fun kv => kv.1 == k)).map Prod.snd

/-- The keys of an entry list, in list order. -/
def entryKeys (es : List entry_t) : List CStr :=
  es.map entry_t.key

/-- The value list of the first entry carrying the key (empty when the key is
absent): the list `get_next` drains, most recent value first. -/
def valuesFor (key : CStr) : List entry_t → List CStr
  | [] => []
  | e :: es => if e.key = key then e.head else valuesFor key es

/-- `reduce_` (lines 111-122): the reduce worker of a partition walks the
partition's entry list and, for each entry, calls the user reducer with the
entry's key, the getter `get_next`, and its own partition number.  The list of
`(key, partition index)` invocation arguments it produces. -/
def reduceInvocations (st : MRState) (partition_number : Nat) : List (CStr × Nat) :=
  (partitionEntries st partition_number).map (fun e => (e.key, partition_number))

/-- Iterated `get_next` calls for one key, with fuel: the value sequence
observed by a reduce function that keeps calling the getter. -/
def drainFuel : Nat → MRState → CStr → Nat → List CStr × MRState
  | 0, st, _, _ => ([], st)
  | n + 1, st, key, pn =>
    match (get_next st key pn).1 with
    | none => ([], (get_next st key pn).2)
    | some v =>
      (v :: (drainFuel n (get_next st key pn).2 key pn).1,
        (drainFuel n (get_next st key pn).2 key pn).2)

/-- Successive `get_next` calls for a key until NULL: enough fuel is the count
of values currently stored for the key. -/
def drainKey (st : MRState) (key : CStr) (pn : Nat) : List CStr × MRState :=
  drainFuel (valuesFor key (partitionEntries st pn)).length st key pn

/-- The `mapper_threads` array after the map-phase create loop of `MR_Run`
(lines 196-198): the thread created for work unit `i` (argv index `i`,
`1 <= i < argc`) has its handle stored in slot `(i - 1) % num_mappers`,
overwriting whatever handle that slot held; slots never written still hold an
uninitialized handle, modeled as `none`. -/
def mapperSlotsAfterCreate (argc num_mappers : Nat) : List (Option Nat) :=
  (List.range' 1 (argc - 1)).foldl
    (fun slots i => slots.set ((i - 1) % num_mappers) (some i))
    (List.replicate num_mappers none)

/-- The work units for which the create loop spawns a map thread: argv indices
`1 .. argc - 1`. -/
def createdMapThreads (argc : Nat) : List Nat :=
  List.range' 1 (argc - 1)

/-- The join loop of the map phase (lines 200-202): it joins, slot by slot, the
handle currently stored in `mapper_threads[i]` — only those threads are waited
for before the reduce workers are spawned. -/
def joinedMapThreads (argc num_mappers : Nat) : List (Option Nat) :=
  mapperSlotsAfterCreate argc num_mappers

/-- Possible outcomes of entering `MR_Run`: either the run starts with an
initialized partition array, or it is rejected with an error message. -/
inductive RunStart where
  | started : MRState → RunStart
  | rejected : String → RunStart
  deriving DecidableEq

/-- Whether an `MR_Run` entry outcome is a rejection. -/
def RunStart.isRejected : RunStart → Bool
  | RunStart.started _ => false
  | RunStart.rejected _ => true

/-- The entry of `MR_Run` (lines 182-198): the source contains no validation of
`num_reducers` or of the `map` / `reduce` / `partitioner` callback pointers —
it unconditionally installs the partitioner, allocates `num_reducers`
partitions and proceeds to thread creation.  The three flags record whether the
caller passed a null callback; no branch of the source examines them. -/
def MR_Run_begin (num_reducers : Nat)
    (_map_is_null _reduce_is_null _partitioner_is_null : Bool) : RunStart :=
  RunStart.started (initState num_reducers)

/-- The heap blocks `cleanup_partitions` releases, identified by their position
in the structure: the value string and value node of value `k` of entry `j` of
partition `i`, the key string and node of entry `j` of partition `i`, and the
`partitions` array itself. -/
inductive Block where
  | partitionsArray : Block
  | valueStr : Nat → Nat → Nat → Block
  | valueNode : Nat → Nat → Nat → Block
  | entryKey : Nat → Nat → Block
  | entryNode : Nat → Nat → Block
  deriving DecidableEq

/-- The `free` calls of `cleanup_partitions` for the `j`-th entry of partition
`i` (lines 128-139): every value's string and node in list order, then the
entry's key string and the entry node. -/
def entryFreeList (i j : Nat) (e : entry_t) : List Block :=
  ((List.range e.head.length).map
      (fun k => [Block.valueStr i j k, Block.valueNode i j k])).flatten
    ++ [Block.entryKey i j, Block.entryNode i j]

/-- The `free` calls of one `cleanup_partitions` invocation (lines 125-144) on
the current globals: the contents of every partition `0 .. num_partitions - 1`,
then `free(partitions)`.  Destroying a mutex releases no heap block and is not
tracked. -/
def cleanup_freeList (st : MRState) : List Block :=
  ((List.range st.num_partitions).map
      (fun i => ((partitionEntries st i).enum.map
        (fun je => entryFreeList i je.1 je.2)).flatten)).flatten
    ++ [Block.partitionsArray]

/-- The globals after `cleanup_partitions` returns: the body (lines 125-144)
contains no assignment to `partitions` or `num_partitions`, so a subsequent
call observes the same (now dangling) state. -/
def cleanup_post (st : MRState) : MRState :=
  st

/-- The `free` calls performed when `cleanup_partitions` runs a second time
after a first complete run. -/
def doubleCleanupTrace (st : MRState) : List Block :=
  cleanup_freeList st ++ cleanup_freeList (cleanup_post st)

/-! ### Hash lemmas -/

theorem hashLoop_eq_foldl (key : CStr) :
    ∀ h : Nat, hashLoop h key = key.foldl (fun a c => (a * 33 + c) % 2 ^ 64) h := by
  induction key with
  | nil => intro h; rfl
  | cons c rest ih => intro h; simp only [hashLoop, List.foldl_cons]; exact ih _

theorem MR_DefaultHashPartition_lt (key : CStr) {R : Nat} (hR : 0 < R) :
    MR_DefaultHashPartition key R < R :=
  Nat.mod_lt _ hR

/-- C4: for every key and every partition count `R >= 1`,
`MR_DefaultHashPartition(K, R)` lies in `[0, R)` and equals the multiplicative
string hash with seed 5381 and multiplier 33 accumulated over the bytes of K,
reduced modulo R.  Determinism across repeated calls is definitional: the
source function reads no mutable state, so its model is a pure function. -/
theorem default_partitioner_contract (key : CStr) (R : Nat) (hR : 1 ≤ R) :
    MR_DefaultHashPartition key R < R ∧
      MR_DefaultHashPartition key R = specMultiplicativeHash key % R := by
  refine ⟨Nat.mod_lt _ hR, ?_⟩
  rw [MR_DefaultHashPartition, specMultiplicativeHash, hashLoop_eq_foldl]

/-- Witness for the partitioner contract at key "hi" = [104, 105] and R = 3. -/
theorem default_partitioner_contract_witness :
    1 ≤ 3 ∧ (MR_DefaultHashPartition [104, 105] 3 < 3 ∧
      MR_DefaultHashPartition [104, 105] 3 = specMultiplicativeHash [104, 105] % 3) :=
  ⟨by decide, default_partitioner_contract [104, 105] 3 (by decide)⟩

/-! ### Entry-list level lemmas about emits -/

theorem valuesFor_of_not_containsKey (key : CStr) (es : List entry_t)
    (h : containsKey key es = false) : valuesFor key es = [] := by
  induction es with
  | nil => rfl
  | cons e es ih =>
    by_cases hk : e.key = key
    · simp [containsKey, hk] at h
    · simp only [valuesFor, if_neg hk]
      exact ih (by simpa [containsKey, hk] using h)

theorem valuesFor_prependValue_self (key v : CStr) (es : List entry_t)
    (h : containsKey key es = true) :
    valuesFor key (prependValue key v es) = v :: valuesFor key es := by
  induction es with
  | nil => simp [containsKey] at h
  | cons e es ih =>
    by_cases hk : e.key = key
    · simp [prependValue, valuesFor, hk]
    · simp only [prependValue, if_neg hk, valuesFor]
      exact ih (by simpa [containsKey, hk] using h)

theorem valuesFor_prependValue_ne (key k1 v : CStr) (hne : k1 ≠ key) (es : List entry_t) :
    valuesFor k1 (prependValue key v es) = valuesFor k1 es := by
  induction es with
  | nil => rfl
  | cons e es ih =>
    by_cases hk : e.key = key
    · have h1 : e.key ≠ k1 := by rw [hk]; exact fun hh => hne hh.symm
      have h2 : ¬ key = k1 := fun hh => hne hh.symm
      simp [prependValue, valuesFor, hk, h1, h2]
    · by_cases h1 : e.key = k1
      · simp [prependValue, valuesFor, hk, h1, hne]
      · simp [prependValue, valuesFor, hk, h1, ih]

theorem valuesFor_emitEntries_self (key v : CStr) (es : List entry_t) :
    valuesFor key (emitEntries key v es) = v :: valuesFor key es := by
  cases h : containsKey key es with
  | true => simp [emitEntries, h, valuesFor_prependValue_self key v es h]
  | false => simp [emitEntries, h, valuesFor, valuesFor_of_not_containsKey key es h]

theorem valuesFor_emitEntries_ne (key k1 v : CStr) (hne : k1 ≠ key) (es : List entry_t) :
    valuesFor k1 (emitEntries key v es) = valuesFor k1 es := by
  cases h : containsKey key es with
  | true => simp [emitEntries, h, valuesFor_prependValue_ne key k1 v hne es]
  | false =>
    have h1 : key ≠ k1 := fun hh => hne hh.symm
    simp [emitEntries, h, valuesFor, h1]

theorem entryKeys_prependValue (key v : CStr) (es : List entry_t) :
    entryKeys (prependValue key v es) = entryKeys es := by
  induction es with
  | nil => rfl
  | cons e es ih =>
    by_cases hk : e.key = key
    · simp [prependValue, entryKeys, hk]
    · simp only [prependValue, if_neg hk]
      simp [entryKeys] at ih ⊢
      exact ih

theorem entryKeys_emitEntries (key v : CStr) (es : List entry_t) :
    entryKeys (emitEntries key v es) =
      if containsKey key es then entryKeys es else key :: entryKeys es := by
  cases h : containsKey key es with
  | true => simp [emitEntries, h, entryKeys_prependValue]
  | false => simp [emitEntries, h, entryKeys]

theorem containsKey_iff_mem (key : CStr) (es : List entry_t) :
    containsKey key es = true ↔ key ∈ entryKeys es := by
  induction es with
  | nil => simp [containsKey, entryKeys]
  | cons e es ih =>
    by_cases hk : e.key = key
    · simp [containsKey, entryKeys, hk]
    · have hk1 : ¬ key = e.key := fun h => hk h.symm
      simp [containsKey, entryKeys, hk, hk1, ih]

theorem nodup_entryKeys_emitEntries (key v : CStr) (es : List entry_t)
    (h : (entryKeys es).Nodup) : (entryKeys (emitEntries key v es)).Nodup := by
  rw [entryKeys_emitEntries]
  cases hc : containsKey key es with
  | true => simpa using h
  | false =>
    simp only [Bool.false_eq_true, if_false]
    refine List.nodup_cons.mpr ⟨?_, h⟩
    intro hmem
    rw [← containsKey_iff_mem] at hmem
    simp [hc] at hmem

/-! ### Entry-list level lemmas about get_next -/

theorem getNextEntries_fst (key : CStr) (es : List entry_t) :
    (getNextEntries key es).1 = (valuesFor key es).head? := by
  induction es with
  | nil => rfl
  | cons e es ih =>
    by_cases hk : e.key = key
    · cases hh : e.head with
      | nil => simp [getNextEntries, valuesFor, hk, hh]
      | cons v vs => simp [getNextEntries, valuesFor, hk, hh]
    · simp [getNextEntries, valuesFor, hk, ih]

theorem valuesFor_getNextEntries_self (key : CStr) (es : List entry_t) :
    valuesFor key (getNextEntries key es).2 = (valuesFor key es).tail := by
  induction es with
  | nil => rfl
  | cons e es ih =>
    by_cases hk : e.key = key
    · cases hh : e.head with
      | nil => simp [getNextEntries, valuesFor, hk, hh]
      | cons v vs => simp [getNextEntries, valuesFor, hk, hh]
    · simp [getNextEntries, valuesFor, hk, ih]

theorem valuesFor_getNextEntries_ne (key k1 : CStr) (hne : k1 ≠ key) (es : List entry_t) :
    valuesFor k1 (getNextEntries key es).2 = valuesFor k1 es := by
  induction es with
  | nil => rfl
  | cons e es ih =>
    by_cases hk : e.key = key
    · have h1 : e.key ≠ k1 := by rw [hk]; exact fun hh => hne hh.symm
      have h2 : ¬ key = k1 := fun hh => hne hh.symm
      cases hh : e.head with
      | nil => simp [getNextEntries, valuesFor, hk, hh, h1, h2]
      | cons v vs => simp [getNextEntries, valuesFor, hk, hh, h1, h2]
    · by_cases h1 : e.key = k1
      · simp [getNextEntries, valuesFor, hk, h1, hne]
      · simp [getNextEntries, valuesFor, hk, h1, ih]

theorem entryKeys_getNextEntries (key : CStr) (es : List entry_t) :
    entryKeys (getNextEntries key es).2 = entryKeys es := by
  induction es with
  | nil => rfl
  | cons e es ih =>
    by_cases hk : e.key = key
    · cases hh : e.head with
      | nil => simp [getNextEntries, hk, hh]
      | cons v vs => simp [getNextEntries, entryKeys, hk, hh]
    · simp only [getNextEntries, if_neg hk]
      simp [entryKeys] at ih ⊢
      exact ih

/-! ### List indexing helpers -/

theorem getD_set_self {α : Type} (l : List α) (i : Nat) (a d : α) (h : i < l.length) :
    (l.set i a).getD i d = a := by
  induction l generalizing i with
  | nil => simp at h
  | cons x xs ih =>
    cases i with
    | zero => rfl
    | succ n => exact ih n (by simpa using h)

theorem getD_set_ne {α : Type} (l : List α) (i j : Nat) (a d : α) (h : j ≠ i) :
    (l.set i a).getD j d = l.getD j d := by
  induction l generalizing i j with
  | nil => rfl
  | cons x xs ih =>
    cases i with
    | zero =>
      cases j with
      | zero => exact absurd rfl h
      | succ m => rfl
    | succ n =>
      cases j with
      | zero => rfl
      | succ m => exact ih n m (fun hh => h (by rw [hh]))

theorem getD_replicate_self {α : Type} (n i : Nat) (d : α) :
    (List.replicate n d).getD i d = d := by
  induction n generalizing i with
  | zero => cases i <;> rfl
  | succ m ih =>
    cases i with
    | zero => rfl
    | succ k => exact ih k

theorem set_of_length_le {α : Type} (l : List α) (i : Nat) (a : α) (h : l.length ≤ i) :
    l.set i a = l := by
  induction l generalizing i with
  | nil => rfl
  | cons x xs ih =>
    cases i with
    | zero => simp at h
    | succ n =>
      show x :: xs.set n a = x :: xs
      rw [ih n (by simpa using h)]

/-! ### State-level lemmas -/

theorem partitionEntries_set_self (st : MRState) (pn : Nat) (es : List entry_t)
    (h : pn < st.partitions.length) :
    partitionEntries (setPartitionEntries st pn es) pn = es := by
  simp only [partitionEntries, setPartitionEntries]
  rw [getD_set_self _ _ _ _ h]

theorem partitionEntries_set_ne (st : MRState) (pn j : Nat) (es : List entry_t)
    (h : j ≠ pn) :
    partitionEntries (setPartitionEntries st pn es) j = partitionEntries st j := by
  simp only [partitionEntries, setPartitionEntries]
  rw [getD_set_ne _ _ _ _ _ h]

theorem partitionEntries_oob (st : MRState) (pn : Nat) (h : st.partitions.length ≤ pn) :
    partitionEntries st pn = [] := by
  simp only [partitionEntries, List.getD_eq_getElem?_getD]
  rw [List.getElem?_eq_none h]
  rfl

theorem partitionEntries_initState (R pn : Nat) :
    partitionEntries (initState R) pn = [] := by
  simp only [partitionEntries, initState]
  rw [getD_replicate_self]

theorem MR_Emit_num_partitions (f : CStr → Nat → Nat) (st : MRState) (k v : CStr) :
    (MR_Emit f st k v).num_partitions = st.num_partitions := rfl

theorem MR_Emit_length (f : CStr → Nat → Nat) (st : MRState) (k v : CStr) :
    (MR_Emit f st k v).partitions.length = st.partitions.length := by
  simp [MR_Emit, setPartitionEntries]

theorem get_next_num_partitions (st : MRState) (key : CStr) (pn : Nat) :
    ((get_next st key pn).2).num_partitions = st.num_partitions := rfl

theorem get_next_length (st : MRState) (key : CStr) (pn : Nat) :
    ((get_next st key pn).2).partitions.length = st.partitions.length := by
  simp [get_next, setPartitionEntries]

theorem get_next_oob (st : MRState) (key : CStr) (pn : Nat)
    (h : st.partitions.length ≤ pn) : (get_next st key pn).2 = st := by
  simp [get_next, setPartitionEntries, set_of_length_le _ _ _ h]

theorem get_next_fst (st : MRState) (key : CStr) (pn : Nat) :
    (get_next st key pn).1 = (valuesFor key (partitionEntries st pn)).head? := by
  simp [get_next, getNextEntries_fst]

theorem valuesFor_get_next_self (st : MRState) (key : CStr) (pn : Nat) :
    valuesFor key (partitionEntries (get_next st key pn).2 pn)
      = (valuesFor key (partitionEntries st pn)).tail := by
  by_cases hlt : pn < st.partitions.length
  · show valuesFor key (partitionEntries (setPartitionEntries st pn _) pn) = _
    rw [partitionEntries_set_self _ _ _ hlt, valuesFor_getNextEntries_self]
  · rw [get_next_oob st key pn (le_of_not_lt hlt),
      partitionEntries_oob st pn (le_of_not_lt hlt)]
    rfl

theorem valuesFor_get_next_ne (st : MRState) (key k1 : CStr) (hne : k1 ≠ key) (pn j : Nat) :
    valuesFor k1 (partitionEntries (get_next st key pn).2 j)
      = valuesFor k1 (partitionEntries st j) := by
  by_cases hj : j = pn
  · subst hj
    by_cases hlt : j < st.partitions.length
    · show valuesFor k1 (partitionEntries (setPartitionEntries st j _) j) = _
      rw [partitionEntries_set_self _ _ _ hlt, valuesFor_getNextEntries_ne _ _ hne]
    · rw [get_next_oob st key j (le_of_not_lt hlt)]
  · show valuesFor k1 (partitionEntries (setPartitionEntries st pn _) j) = _
    rw [partitionEntries_set_ne _ _ _ _ hj]

theorem entryKeys_get_next (st : MRState) (key : CStr) (pn q : Nat) :
    entryKeys (partitionEntries (get_next st key pn).2 q)
      = entryKeys (partitionEntries st q) := by
  by_cases hq : q = pn
  · subst hq
    by_cases hlt : q < st.partitions.length
    · show entryKeys (partitionEntries (setPartitionEntries st q _) q) = _
      rw [partitionEntries_set_self _ _ _ hlt, entryKeys_getNextEntries]
    · rw [get_next_oob st key q (le_of_not_lt hlt)]
  · show entryKeys (partitionEntries (setPartitionEntries st pn _) q) = _
    rw [partitionEntries_set_ne _ _ _ _ hq]

theorem valuesFor_MR_Emit_self (f : CStr → Nat → Nat) (st : MRState) (k v : CStr)
    (h : f k st.num_partitions < st.partitions.length) :
    valuesFor k (partitionEntries (MR_Emit f st k v) (f k st.num_partitions))
      = v :: valuesFor k (partitionEntries st (f k st.num_partitions)) := by
  rw [MR_Emit, partitionEntries_set_self _ _ _ h, valuesFor_emitEntries_self]

theorem valuesFor_MR_Emit_ne (f : CStr → Nat → Nat) (st : MRState) (k v k1 : CStr)
    (hne : k1 ≠ k) (h : f k st.num_partitions < st.partitions.length) (j : Nat) :
    valuesFor k1 (partitionEntries (MR_Emit f st k v) j)
      = valuesFor k1 (partitionEntries st j) := by
  by_cases hj : j = f k st.num_partitions
  · subst hj
    rw [MR_Emit, partitionEntries_set_self _ _ _ h, valuesFor_emitEntries_ne _ _ _ hne]
  · rw [MR_Emit, partitionEntries_set_ne _ _ _ _ hj]

theorem MR_Emit_partitions_ne (f : CStr → Nat → Nat) (st : MRState) (k v : CStr)
    (j : Nat) (hj : j ≠ f k st.num_partitions) :
    (MR_Emit f st k v).partitions.getD j { head := [] }
      = st.partitions.getD j { head := [] } := by
  rw [MR_Emit, setPartitionEntries]
  exact getD_set_ne _ _ _ _ _ hj

theorem entryKeys_MR_Emit_self (f : CStr → Nat → Nat) (st : MRState) (k v : CStr)
    (h : f k st.num_partitions < st.partitions.length) :
    entryKeys (partitionEntries (MR_Emit f st k v) (f k st.num_partitions))
      = if containsKey k (partitionEntries st (f k st.num_partitions))
        then entryKeys (partitionEntries st (f k st.num_partitions))
        else k :: entryKeys (partitionEntries st (f k st.num_partitions)) := by
  rw [MR_Emit, partitionEntries_set_self _ _ _ h, entryKeys_emitEntries]

/-! ### Map-phase fold lemmas -/

theorem foldl_emit_num_partitions (f : CStr → Nat → Nat) (emits : List (CStr × CStr)) :
    ∀ st : MRState,
      (emits.foldl (fun s kv => MR_Emit f s kv.1 kv.2) st).num_partitions
        = st.num_partitions := by
  induction emits with
  | nil => intro st; rfl
  | cons kv rest ih => intro st; exact ih (MR_Emit f st kv.1 kv.2)

theorem foldl_emit_length (f : CStr → Nat → Nat) (emits : List (CStr × CStr)) :
    ∀ st : MRState,
      (emits.foldl (fun s kv => MR_Emit f s kv.1 kv.2) st).partitions.length
        = st.partitions.length := by
  induction emits with
  | nil => intro st; rfl
  | cons kv rest ih =>
    intro st
    rw [List.foldl_cons, ih (MR_Emit f st kv.1 kv.2), MR_Emit_length]

theorem valuesFor_foldl_emit (f : CStr → Nat → Nat) (R : Nat) (k : CStr)
    (hf : ∀ key, f key R < R) (emits : List (CStr × CStr)) :
    ∀ st : MRState, st.num_partitions = R → st.partitions.length = R →
      valuesFor k (partitionEntries
          (emits.foldl (fun s kv => MR_Emit f s kv.1 kv.2) st) (f k R))
        = (emittedFor k emits).reverse ++ valuesFor k (partitionEntries st (f k R)) := by
  induction emits with
  | nil => intro st h1 h2; simp [emittedFor]
  | cons kv rest ih =>
    intro st h1 h2
    obtain ⟨k1, v1⟩ := kv
    rw [List.foldl_cons,
      ih (MR_Emit f st k1 v1) ((MR_Emit_num_partitions f st k1 v1).trans h1)
        ((MR_Emit_length f st k1 v1).trans h2)]
    have hlt : f k1 st.num_partitions < st.partitions.length := by
      rw [h1, h2]; exact hf k1
    by_cases hk : k1 = k
    · subst hk
      have hidx : f k1 R = f k1 st.num_partitions := by rw [h1]
      rw [hidx, valuesFor_MR_Emit_self f st k1 v1 hlt]
      simp [emittedFor, List.filter_cons, List.append_assoc]
    · rw [valuesFor_MR_Emit_ne f st k1 v1 k (fun hh => hk hh.symm) hlt (f k R)]
      simp [emittedFor, List.filter_cons, hk]

theorem valuesFor_runEmits (f : CStr → Nat → Nat) (R : Nat) (k : CStr)
    (hf : ∀ key, f key R < R) (emits : List (CStr × CStr)) :
    valuesFor k (partitionEntries (runEmits f R emits) (f k R))
      = (emittedFor k emits).reverse := by
  rw [runEmits,
    valuesFor_foldl_emit f R k hf emits (initState R) rfl (by simp [initState]),
    partitionEntries_initState]
  simp [valuesFor]

theorem mem_entryKeys_MR_Emit (f : CStr → Nat → Nat) (st : MRState) (k1 v k : CStr)
    (p : Nat) (hlt : f k1 st.num_partitions < st.partitions.length) :
    (k ∈ entryKeys (partitionEntries (MR_Emit f st k1 v) p) ↔
      (k = k1 ∧ f k1 st.num_partitions = p) ∨
        k ∈ entryKeys (partitionEntries st p)) := by
  by_cases hp : p = f k1 st.num_partitions
  · subst hp
    rw [MR_Emit, partitionEntries_set_self _ _ _ hlt, entryKeys_emitEntries]
    cases hc : containsKey k1 (partitionEntries st (f k1 st.num_partitions)) with
    | true =>
      simp only [if_pos rfl, if_true]
      constructor
      · exact fun h => Or.inr h
      · rintro (⟨hk, _⟩ | h)
        · subst hk; exact (containsKey_iff_mem _ _).mp hc
        · exact h
    | false =>
      simp only [Bool.false_eq_true, if_false, List.mem_cons]
      constructor
      · rintro (hk | h)
        · exact Or.inl ⟨hk, by trivial⟩
        · exact Or.inr h
      · rintro (⟨hk, _⟩ | h)
        · exact Or.inl hk
        · exact Or.inr h
  · rw [MR_Emit, partitionEntries_set_ne _ _ _ _ hp]
    constructor
    · exact fun h => Or.inr h
    · rintro (⟨_, hpp⟩ | h)
      · exact absurd hpp.symm hp
      · exact h

theorem mem_entryKeys_foldl_emit (f : CStr → Nat → Nat) (R : Nat) (k : CStr) (p : Nat)
    (hf : ∀ key, f key R < R) (emits : List (CStr × CStr)) :
    ∀ st : MRState, st.num_partitions = R → st.partitions.length = R →
      (k ∈ entryKeys (partitionEntries
          (emits.foldl (fun s kv => MR_Emit f s kv.1 kv.2) st) p) ↔
        (∃ v, (k, v) ∈ emits ∧ f k R = p) ∨
          k ∈ entryKeys (partitionEntries st p)) := by
  induction emits with
  | nil => intro st h1 h2; simp
  | cons kv rest ih =>
    intro st h1 h2
    obtain ⟨k1, v1⟩ := kv
    rw [List.foldl_cons,
      ih (MR_Emit f st k1 v1) ((MR_Emit_num_partitions f st k1 v1).trans h1)
        ((MR_Emit_length f st k1 v1).trans h2)]
    have hlt : f k1 st.num_partitions < st.partitions.length := by
      rw [h1, h2]; exact hf k1
    rw [mem_entryKeys_MR_Emit f st k1 v1 k p hlt, h1]
    constructor
    · rintro (⟨v, hv, hp2⟩ | ⟨⟨hk, hp2⟩ | hmem⟩)
      · exact Or.inl ⟨v, List.mem_cons_of_mem _ hv, hp2⟩
      · subst hk; exact Or.inl ⟨v1, List.mem_cons_self _ _, hp2⟩
      · exact Or.inr hmem
    · rintro (⟨v, hv, hp2⟩ | hmem)
      · rcases List.mem_cons.mp hv with heq | hv2
        · have hk : k = k1 := congrArg Prod.fst heq
          refine Or.inr (Or.inl ⟨hk, ?_⟩)
          rw [← hk]; exact hp2
        · exact Or.inl ⟨v, hv2, hp2⟩
      · exact Or.inr (Or.inr hmem)

theorem mem_entryKeys_runEmits (f : CStr → Nat → Nat) (R : Nat) (k : CStr) (p : Nat)
    (hf : ∀ key, f key R < R) (emits : List (CStr × CStr)) :
    (k ∈ entryKeys (partitionEntries (runEmits f R emits) p) ↔
      ∃ v, (k, v) ∈ emits ∧ f k R = p) := by
  rw [runEmits,
    mem_entryKeys_foldl_emit f R k p hf emits (initState R) rfl (by simp [initState]),
    partitionEntries_initState]
  simp [entryKeys]

theorem nodup_entryKeys_MR_Emit (f : CStr → Nat → Nat) (st : MRState) (k1 v : CStr)
    (p : Nat) (hlt : f k1 st.num_partitions < st.partitions.length)
    (h : (entryKeys (partitionEntries st p)).Nodup) :
    (entryKeys (partitionEntries (MR_Emit f st k1 v) p)).Nodup := by
  by_cases hp : p = f k1 st.num_partitions
  · subst hp
    rw [MR_Emit, partitionEntries_set_self _ _ _ hlt]
    exact nodup_entryKeys_emitEntries _ _ _ h
  · rw [MR_Emit, partitionEntries_set_ne _ _ _ _ hp]
    exact h

theorem nodup_entryKeys_runEmits (f : CStr → Nat → Nat) (R : Nat) (p : Nat)
    (hf : ∀ key, f key R < R) (emits : List (CStr × CStr)) :
    (entryKeys (partitionEntries (runEmits f R emits) p)).Nodup := by
  rw [runEmits]
  have main : ∀ st : MRState, st.num_partitions = R → st.partitions.length = R →
      (entryKeys (partitionEntries st p)).Nodup →
      (entryKeys (partitionEntries
        (emits.foldl (fun s kv => MR_Emit f s kv.1 kv.2) st) p)).Nodup := by
    induction emits with
    | nil => intro st _ _ h; exact h
    | cons kv rest ih =>
      intro st h1 h2 h
      obtain ⟨k1, v1⟩ := kv
      rw [List.foldl_cons]
      refine ih (MR_Emit f st k1 v1) ((MR_Emit_num_partitions f st k1 v1).trans h1)
        ((MR_Emit_length f st k1 v1).trans h2) ?_
      refine nodup_entryKeys_MR_Emit f st k1 v1 p ?_ h
      rw [h1, h2]; exact hf k1
  refine main (initState R) rfl (by simp [initState]) ?_
  rw [partitionEntries_initState]
  simp [entryKeys]

/-! ### Drain lemmas -/

theorem drainFuel_spec (key : CStr) (pn : Nat) :
    ∀ (fuel : Nat) (st : MRState),
      fuel = (valuesFor key (partitionEntries st pn)).length →
      (drainFuel fuel st key pn).1 = valuesFor key (partitionEntries st pn) ∧
        valuesFor key (partitionEntries (drainFuel fuel st key pn).2 pn) = [] := by
  intro fuel
  induction fuel with
  | zero =>
    intro st hfuel
    have hnil : valuesFor key (partitionEntries st pn) = [] :=
      List.length_eq_zero.mp hfuel.symm
    simp [drainFuel, hnil]
  | succ n ih =>
    intro st hfuel
    cases hv : valuesFor key (partitionEntries st pn) with
    | nil => rw [hv] at hfuel; simp at hfuel
    | cons v vs =>
      have hfst : (get_next st key pn).1 = some v := by
        rw [get_next_fst, hv]; rfl
      have hsnd : valuesFor key (partitionEntries (get_next st key pn).2 pn) = vs := by
        rw [valuesFor_get_next_self, hv]; rfl
      have hlen : n = vs.length := by
        rw [hv] at hfuel
        simpa using hfuel
      obtain ⟨ih1, ih2⟩ := ih (get_next st key pn).2 (by rw [hsnd]; exact hlen)
      constructor
      · simp only [drainFuel, hfst]
        rw [ih1, hsnd]
      · simp only [drainFuel, hfst]
        exact ih2

theorem drainKey_fst (st : MRState) (key : CStr) (pn : Nat) :
    (drainKey st key pn).1 = valuesFor key (partitionEntries st pn) :=
  (drainFuel_spec key pn _ st rfl).1

theorem drainKey_post (st : MRState) (key : CStr) (pn : Nat) :
    valuesFor key (partitionEntries (drainKey st key pn).2 pn) = [] :=
  (drainFuel_spec key pn _ st rfl).2

/-! ### Shared helpers for the claim theorems -/

theorem drain_runEmits_eq (f : CStr → Nat → Nat) (R : Nat) (emits : List (CStr × CStr))
    (k : CStr) (hf : ∀ key, f key R < R) :
    (drainKey (runEmits f R emits) k (f k R)).1 = (emittedFor k emits).reverse := by
  rw [drainKey_fst, valuesFor_runEmits f R k hf emits]

theorem reduceInvocations_map_fst (st : MRState) (p : Nat) :
    (reduceInvocations st p).map Prod.fst = entryKeys (partitionEntries st p) := by
  simp [reduceInvocations, entryKeys, List.map_map]

theorem mem_reduceInvocations (st : MRState) (p : Nat) (k : CStr) :
    ((k, p) ∈ reduceInvocations st p) ↔ k ∈ entryKeys (partitionEntries st p) := by
  simp [reduceInvocations, entryKeys]

theorem reduceInvocations_get_next (st : MRState) (key : CStr) (pn p : Nat) :
    reduceInvocations (get_next st key pn).2 p = reduceInvocations st p := by
  have h : ∀ s : MRState, reduceInvocations s p
      = (entryKeys (partitionEntries s p)).map (fun k => (k, p)) := by
    intro s
    simp [reduceInvocations, entryKeys, List.map_map]
  rw [h, h, entryKeys_get_next]

theorem partitionsArray_not_mem_entryFreeList (i j : Nat) (e : entry_t) :
    Block.partitionsArray ∉ entryFreeList i j e := by
  simp [entryFreeList]

theorem count_partitionsArray_cleanup (st : MRState) :
    (cleanup_freeList st).count Block.partitionsArray = 1 := by
  rw [cleanup_freeList, List.count_append]
  have h0 : (((List.range st.num_partitions).map
      (fun i => ((partitionEntries st i).enum.map
        (fun je => entryFreeList i je.1 je.2)).flatten)).flatten).count
          Block.partitionsArray = 0 := by
    rw [List.count_eq_zero]
    intro h
    rw [List.mem_flatten] at h
    rcases h with ⟨l, hl, hmem⟩
    rw [List.mem_map] at hl
    rcases hl with ⟨i, _, rfl⟩
    rw [List.mem_flatten] at hmem
    rcases hmem with ⟨l2, hl2, hmem2⟩
    rw [List.mem_map] at hl2
    rcases hl2 with ⟨je, _, rfl⟩
    exact partitionsArray_not_mem_entryFreeList _ _ _ hmem2
  rw [h0]
  rfl

/-! ### Claim theorems -/

/-- C1 (conservation law): for every run, linearized as the emit list `emits`,
and every key `k`, draining `k` in its partition by successive `get_next` calls
returns as many values as were emitted for `k` before reduce began, returns
each emitted value with exactly the multiplicity it was emitted with (no loss,
no duplication), and is destructive: after the drain nothing remains stored for
`k` and one more `get_next` call returns NULL. -/
theorem conservation_law (f : CStr → Nat → Nat) (R : Nat) (emits : List (CStr × CStr))
    (k : CStr) (hf : ∀ key, f key R < R) :
    (drainKey (runEmits f R emits) k (f k R)).1.length = (emittedFor k emits).length ∧
      (∀ v : CStr, (drainKey (runEmits f R emits) k (f k R)).1.count v
        = (emittedFor k emits).count v) ∧
      valuesFor k (partitionEntries
        (drainKey (runEmits f R emits) k (f k R)).2 (f k R)) = [] ∧
      (get_next (drainKey (runEmits f R emits) k (f k R)).2 k (f k R)).1 = none := by
  have hd := drain_runEmits_eq f R emits k hf
  refine ⟨?_, ?_, drainKey_post _ _ _, ?_⟩
  · rw [hd, List.length_reverse]
  · intro v
    rw [hd, List.count_reverse]
  · rw [get_next_fst, drainKey_post]
    rfl

/-- Witness for the conservation law: two partitions, key "a" = [97] emitted
twice and key "b" = [98] once, with the default partitioner. -/
theorem conservation_law_witness :
    (∀ key : CStr, MR_DefaultHashPartition key 2 < 2) ∧
      ((drainKey (runEmits MR_DefaultHashPartition 2
            [([97], [49]), ([97], [50]), ([98], [51])]) [97]
          (MR_DefaultHashPartition [97] 2)).1.length
        = (emittedFor [97] [([97], [49]), ([97], [50]), ([98], [51])]).length ∧
      (∀ v : CStr, (drainKey (runEmits MR_DefaultHashPartition 2
            [([97], [49]), ([97], [50]), ([98], [51])]) [97]
          (MR_DefaultHashPartition [97] 2)).1.count v
        = (emittedFor [97] [([97], [49]), ([97], [50]), ([98], [51])]).count v) ∧
      valuesFor [97] (partitionEntries
        (drainKey (runEmits MR_DefaultHashPartition 2
            [([97], [49]), ([97], [50]), ([98], [51])]) [97]
          (MR_DefaultHashPartition [97] 2)).2 (MR_DefaultHashPartition [97] 2)) = [] ∧
      (get_next (drainKey (runEmits MR_DefaultHashPartition 2
            [([97], [49]), ([97], [50]), ([98], [51])]) [97]
          (MR_DefaultHashPartition [97] 2)).2 [97]
        (MR_DefaultHashPartition [97] 2)).1 = none) :=
  ⟨fun key => MR_DefaultHashPartition_lt key (by decide),
    conservation_law MR_DefaultHashPartition 2
      [([97], [49]), ([97], [50]), ([98], [51])] [97]
      (fun key => MR_DefaultHashPartition_lt key (by decide))⟩

/-- C2 (LIFO law): for every run, linearized as the emit list `emits`, and
every key `k`, the sequence of values returned by successive `get_next` calls
for `k` in `k`'s partition is exactly the reverse of the order in which those
values were emitted for `k`. -/
theorem lifo_law (f : CStr → Nat → Nat) (R : Nat) (emits : List (CStr × CStr))
    (k : CStr) (hf : ∀ key, f key R < R) :
    (drainKey (runEmits f R emits) k (f k R)).1 = (emittedFor k emits).reverse :=
  drain_runEmits_eq f R emits k hf

/-- Witness for the LIFO law: key "a" = [97] emitted with values "1", then "3",
interleaved with key "b"; the drain returns "3" then "1". -/
theorem lifo_law_witness :
    (∀ key : CStr, MR_DefaultHashPartition key 2 < 2) ∧
      (drainKey (runEmits MR_DefaultHashPartition 2
            [([97], [49]), ([98], [50]), ([97], [51])]) [97]
          (MR_DefaultHashPartition [97] 2)).1
        = (emittedFor [97] [([97], [49]), ([98], [50]), ([97], [51])]).reverse :=
  ⟨fun key => MR_DefaultHashPartition_lt key (by decide),
    lifo_law MR_DefaultHashPartition 2 [([97], [49]), ([98], [50]), ([97], [51])] [97]
      (fun key => MR_DefaultHashPartition_lt key (by decide))⟩

/-- C3 (one entry per key): after any sequence of `MR_Emit` calls, every
partition's entry list carries pairwise distinct keys — all emits of one key
converge on one entry — and the invariant is preserved by the reduce phase:
`get_next` never changes the key spine of any partition (and the reduce
traversal only reads it). -/
theorem one_entry_per_key (f : CStr → Nat → Nat) (R : Nat) (emits : List (CStr × CStr))
    (p : Nat) (hf : ∀ key, f key R < R) :
    (entryKeys (partitionEntries (runEmits f R emits) p)).Nodup ∧
      (∀ (st : MRState) (key : CStr) (pn q : Nat),
        entryKeys (partitionEntries (get_next st key pn).2 q)
          = entryKeys (partitionEntries st q)) :=
  ⟨nodup_entryKeys_runEmits f R p hf emits,
    fun st key pn q => entryKeys_get_next st key pn q⟩

/-- Witness for the one-entry-per-key invariant: key "a" emitted twice into two
partitions, partition 0 inspected. -/
theorem one_entry_per_key_witness :
    (∀ key : CStr, MR_DefaultHashPartition key 2 < 2) ∧
      ((entryKeys (partitionEntries (runEmits MR_DefaultHashPartition 2
          [([97], [49]), ([98], [50]), ([97], [51])]) 0)).Nodup ∧
        (∀ (st : MRState) (key : CStr) (pn q : Nat),
          entryKeys (partitionEntries (get_next st key pn).2 q)
            = entryKeys (partitionEntries st q))) :=
  ⟨fun key => MR_DefaultHashPartition_lt key (by decide),
    one_entry_per_key MR_DefaultHashPartition 2
      [([97], [49]), ([98], [50]), ([97], [51])] 0
      (fun key => MR_DefaultHashPartition_lt key (by decide))⟩

/-- C8 (once-per-distinct-key reduction): for every run, linearized as the emit
list `emits`, and every partition `p`, the reduce worker of `p` invokes the
user reduce function once per distinct key stored in `p` — the invocation keys
are pairwise distinct, an invocation `(k, p)` happens exactly when `k` was
emitted and partitions to `p` — every invocation passes the worker's own
partition index, and getter calls during the traversal never change the
invocation list (the entry spine is not modified by `get_next`). -/
theorem reduce_once_per_key (f : CStr → Nat → Nat) (R : Nat)
    (emits : List (CStr × CStr)) (p : Nat) (hf : ∀ key, f key R < R) :
    ((reduceInvocations (runEmits f R emits) p).map Prod.fst).Nodup ∧
      (∀ k : CStr, (k, p) ∈ reduceInvocations (runEmits f R emits) p ↔
        ∃ v, (k, v) ∈ emits ∧ f k R = p) ∧
      (∀ inv ∈ reduceInvocations (runEmits f R emits) p, inv.2 = p) ∧
      (∀ (key : CStr) (pn : Nat),
        reduceInvocations (get_next (runEmits f R emits) key pn).2 p
          = reduceInvocations (runEmits f R emits) p) := by
  refine ⟨?_, ?_, ?_, ?_⟩
  · rw [reduceInvocations_map_fst]
    exact nodup_entryKeys_runEmits f R p hf emits
  · intro k
    rw [mem_reduceInvocations]
    exact mem_entryKeys_runEmits f R k p hf emits
  · intro inv hinv
    rcases List.mem_map.mp hinv with ⟨e, _, rfl⟩
    rfl
  · intro key pn
    exact reduceInvocations_get_next (runEmits f R emits) key pn p

/-- Witness for once-per-distinct-key reduction: reducerConcurrency 1 — every
key converges into the single partition 0, each distinct key visited once. -/
theorem reduce_once_per_key_witness :
    (∀ key : CStr, MR_DefaultHashPartition key 1 < 1) ∧
      (((reduceInvocations (runEmits MR_DefaultHashPartition 1
          [([97], [49]), ([98], [50]), ([97], [51])]) 0).map Prod.fst).Nodup ∧
      (∀ k : CStr, (k, 0) ∈ reduceInvocations (runEmits MR_DefaultHashPartition 1
          [([97], [49]), ([98], [50]), ([97], [51])]) 0 ↔
        ∃ v, (k, v) ∈ [([97], [49]), ([98], [50]), ([97], [51])] ∧
          MR_DefaultHashPartition k 1 = 0) ∧
      (∀ inv ∈ reduceInvocations (runEmits MR_DefaultHashPartition 1
          [([97], [49]), ([98], [50]), ([97], [51])]) 0, inv.2 = 0) ∧
      (∀ (key : CStr) (pn : Nat),
        reduceInvocations (get_next (runEmits MR_DefaultHashPartition 1
            [([97], [49]), ([98], [50]), ([97], [51])]) key pn).2 0
          = reduceInvocations (runEmits MR_DefaultHashPartition 1
              [([97], [49]), ([98], [50]), ([97], [51])]) 0)) :=
  ⟨fun key => MR_DefaultHashPartition_lt key (by decide),
    reduce_once_per_key MR_DefaultHashPartition 1
      [([97], [49]), ([98], [50]), ([97], [51])] 0
      (fun key => MR_DefaultHashPartition_lt key (by decide))⟩

/-- C10 (frame property of emit): `MR_Emit k v` only touches `k`'s partition —
every other partition index reads back unchanged — and inside `k`'s partition
it only prepends `v` to `k`'s value list (creating `k`'s entry at the front if
absent): every other key's value list is unchanged in every partition, the
previously stored values of `k` remain in their previous relative order below
the new one, and the key spine gains at most the new key `k` at the front. -/
theorem emit_frame (f : CStr → Nat → Nat) (st : MRState) (k v : CStr)
    (hpn : f k st.num_partitions < st.partitions.length) :
    (∀ j, j ≠ f k st.num_partitions →
      (MR_Emit f st k v).partitions.getD j { head := [] }
        = st.partitions.getD j { head := [] }) ∧
      (∀ k1 : CStr, k1 ≠ k → ∀ j,
        valuesFor k1 (partitionEntries (MR_Emit f st k v) j)
          = valuesFor k1 (partitionEntries st j)) ∧
      valuesFor k (partitionEntries (MR_Emit f st k v) (f k st.num_partitions))
        = v :: valuesFor k (partitionEntries st (f k st.num_partitions)) ∧
      entryKeys (partitionEntries (MR_Emit f st k v) (f k st.num_partitions))
        = (if containsKey k (partitionEntries st (f k st.num_partitions))
           then entryKeys (partitionEntries st (f k st.num_partitions))
           else k :: entryKeys (partitionEntries st (f k st.num_partitions))) :=
  ⟨fun j hj => MR_Emit_partitions_ne f st k v j hj,
    fun k1 hk1 j => valuesFor_MR_Emit_ne f st k v k1 hk1 hpn j,
    valuesFor_MR_Emit_self f st k v hpn,
    entryKeys_MR_Emit_self f st k v hpn⟩

/-- Witness for the emit frame property: emitting ("a", "1") into a fresh
two-partition state. -/
theorem emit_frame_witness :
    MR_DefaultHashPartition [97] (initState 2).num_partitions
        < (initState 2).partitions.length ∧
      ((∀ j, j ≠ MR_DefaultHashPartition [97] (initState 2).num_partitions →
        (MR_Emit MR_DefaultHashPartition (initState 2) [97] [49]).partitions.getD j
            { head := [] }
          = (initState 2).partitions.getD j { head := [] }) ∧
      (∀ k1 : CStr, k1 ≠ [97] → ∀ j,
        valuesFor k1 (partitionEntries
            (MR_Emit MR_DefaultHashPartition (initState 2) [97] [49]) j)
          = valuesFor k1 (partitionEntries (initState 2) j)) ∧
      valuesFor [97] (partitionEntries
          (MR_Emit MR_DefaultHashPartition (initState 2) [97] [49])
          (MR_DefaultHashPartition [97] (initState 2).num_partitions))
        = [49] :: valuesFor [97] (partitionEntries (initState 2)
            (MR_DefaultHashPartition [97] (initState 2).num_partitions)) ∧
      entryKeys (partitionEntries
          (MR_Emit MR_DefaultHashPartition (initState 2) [97] [49])
          (MR_DefaultHashPartition [97] (initState 2).num_partitions))
        = (if containsKey [97] (partitionEntries (initState 2)
              (MR_DefaultHashPartition [97] (initState 2).num_partitions))
           then entryKeys (partitionEntries (initState 2)
              (MR_DefaultHashPartition [97] (initState 2).num_partitions))
           else [97] :: entryKeys (partitionEntries (initState 2)
              (MR_DefaultHashPartition [97] (initState 2).num_partitions)))) :=
  ⟨by decide, emit_frame MR_DefaultHashPartition (initState 2) [97] [49] (by decide)⟩

/-- C5 counterexample: invoking `MR_Run` with zero partitions (num_reducers = 0)
and null map/reduce/partitioner callbacks is not rejected — the source performs
no validation and the run starts. -/
theorem misuse_not_rejected :
    (MR_Run_begin 0 true true true).isRejected = false :=
  rfl

/-- C5 amended: `MR_Run` performs no argument validation at all — every
invocation, including `num_reducers = 0` and null callbacks, starts the run
(no rejection path exists in the source), and with `num_reducers = 0` the run
begins with an empty partition array, so any later emit would index out of its
bounds (and the partitioner's modulo by zero is undefined behavior in C). -/
theorem mr_run_no_validation (R : Nat) (a b c : Bool) :
    (MR_Run_begin R a b c).isRejected = false ∧
      MR_Run_begin 0 a b c
        = RunStart.started { num_partitions := 0, partitions := [] } :=
  ⟨rfl, rfl⟩

/-- C6 (code bug, failing input argc = 4, num_mappers = 2): the create loop
spawns threads for the three work units 1, 2, 3, but stores unit 3's handle in
slot (3 - 1) % 2 = 0, overwriting unit 1's handle; the join loop then joins
only the handles left in the slots — units 3 and 2 — and never joins unit 1's
thread, which can still be running its map function when the reduce workers
start.  This contradicts the full-map-barrier claim and the source's own
comment "Wait for all mapper threads to complete their tasks" (line 200). -/
theorem map_barrier_violated :
    createdMapThreads 4 = [1, 2, 3] ∧
      joinedMapThreads 4 2 = [some 3, some 2] ∧
      some 1 ∉ joinedMapThreads 4 2 := by
  decide

/-- C7 (code bug, failing input argc = 1, num_mappers = 2): with zero work
units the create loop spawns nothing, so every `mapper_threads` slot still
holds an uninitialized handle (`none`) when the join loop runs — the source
executes `pthread_join` on uninitialized thread handles, which is undefined
behavior, so the run is not guaranteed to complete "without error".  The
functional content of the claim does hold: all partitions stay empty, the
reduce workers perform zero reduce invocations, and teardown frees only the
partitions array. -/
theorem zero_work_units_run :
    mapperSlotsAfterCreate 1 2 = [none, none] ∧
      reduceInvocations (runEmits MR_DefaultHashPartition 2 []) 0 = [] ∧
      reduceInvocations (runEmits MR_DefaultHashPartition 2 []) 1 = [] ∧
      cleanup_freeList (runEmits MR_DefaultHashPartition 2 [])
        = [Block.partitionsArray] := by
  decide

/-- C9 counterexample: after a completed run with one partition has already
been cleaned up, running `cleanup_partitions` again frees the partitions array
a second time — the free trace of the two calls releases it twice. -/
theorem cleanup_double_free :
    (doubleCleanupTrace (initState 1)).count Block.partitionsArray = 2 := by
  decide

/-- C9 amended: `cleanup_partitions` is not guarded against re-entry — it
leaves the global partition pointer and count unchanged, so a second invocation
after a completed run replays every free of the first one; in particular
`free(partitions)` executes twice (a double free), for every state. -/
theorem cleanup_not_reentrant (st : MRState) :
    cleanup_post st = st ∧
      (doubleCleanupTrace st).count Block.partitionsArray = 2 := by
  refine ⟨rfl, ?_⟩
  rw [doubleCleanupTrace, List.count_append]
  simp only [cleanup_post]
  rw [count_partitionsArray_cleanup]
